import Mathlib

/-!
Shallow embedding of the DARIA-TOPSIS temporal MCDA pipeline: the driver
`main_daria.py` together with the components it calls (max normalization,
CRITIC weighting, the TOPSIS scorer, the rank transform, the DARIA
variability engine, the efficiency updater and the two rank-correlation
measures).  Matrices are functions on `Fin`, floating-point numbers are
modelled as real numbers, and degenerate numeric cases use the documented
fallback values.  The component libraries are not shipped with the driver
source, so their operations are modelled from the specification text.
-/

namespace DariaTopsis

open Finset

/-- Largest entry of column `j` of a matrix with at least one row. -/
noncomputable def colMax {m n : ℕ} (v : Fin (m + 1) → Fin (n + 1) → ℝ)
    (j : Fin (n + 1)) : ℝ :=
  Finset.univ.sup' Finset.univ_nonempty fun i => v i j

/-- Smallest entry of column `j` of a matrix with at least one row. -/
noncomputable def colMin {m n : ℕ} (v : Fin (m + 1) → Fin (n + 1) → ℝ)
    (j : Fin (n + 1)) : ℝ :=
  Finset.univ.inf' Finset.univ_nonempty fun i => v i j

/-- Modelled from the spec: the max-normalization policy (the missing
normalizations library).  For a benefit criterion each entry is divided by
the column maximum; for a cost criterion the column minimum is divided by
each entry. -/
noncomputable def max_normalization {m n : ℕ} (matrix : Fin (m + 1) → Fin (n + 1) → ℝ)
    (types : Fin (n + 1) → ℤ) (i : Fin (m + 1)) (j : Fin (n + 1)) : ℝ :=
  if types j = 1 then matrix i j / colMax matrix j else colMin matrix j / matrix i j

namespace DARIA

/-- Modelled from the spec: the entropy-based variability of the missing
daria module.  The score series of entity `i` across periods is normalized
to sum to one, its Shannon entropy is rescaled by the maximal entropy
log of the period count, and the variability is one minus that ratio; in
the degenerate single-period or zero-sum case it is defined as 0. -/
noncomputable def entropy {T m : ℕ} (matrix : Fin T → Fin m → ℝ) (i : Fin m) : ℝ :=
  if T ≤ 1 ∨ (∑ t, matrix t i) = 0 then 0
  else 1 - (∑ t, Real.negMulLog (matrix t i / ∑ u, matrix u i)) / Real.log T

/-- Modelled from the spec: the trend direction of the missing daria
module.  The raw trend is ascending (+1) when the score at the last
period exceeds the score at the first period and descending (-1)
otherwise; the scoring convention `ty` flips the mapping for methods with
an inverted convention. -/
noncomputable def direction {T m : ℕ} (matrix : Fin (T + 1) → Fin m → ℝ) (ty : ℝ)
    (i : Fin m) : ℝ :=
  ty * (if matrix 0 i < matrix (Fin.last T) i then 1 else -1)

/-- Modelled from the spec: the efficiency updater of the missing daria
module, elementwise final = baseline + direction * variability. -/
def update_efficiency {k : ℕ} (S G d : Fin k → ℝ) (i : Fin k) : ℝ :=
  S i + d i * G i

end DARIA

/-- Modelled from the spec: the Spearman rank correlation of the missing
correlations library, in the standard closed displacement form. -/
noncomputable def spearman {N : ℕ} (R Q : Fin N → ℝ) : ℝ :=
  1 - 6 * (∑ i, (R i - Q i) ^ 2) / ((N : ℝ) * ((N : ℝ) ^ 2 - 1))

/-- Modelled from the spec: the weighted Spearman rank correlation of the
missing correlations library, weighting top-rank discrepancies more
heavily, equal to 1 on identical rankings. -/
noncomputable def weighted_spearman {N : ℕ} (R Q : Fin N → ℝ) : ℝ :=
  1 - 6 * (∑ i, (R i - Q i) ^ 2 * (((N : ℝ) - R i + 1) + ((N : ℝ) - Q i + 1))) /
    ((N : ℝ) ^ 4 + (N : ℝ) ^ 3 - (N : ℝ) ^ 2 - (N : ℝ))

/-- Modelled from the spec: the strict priority used by the rank
transform.  Entity `j` is ranked before entity `i` when its score is
strictly better for the selected sort order, or on ties when `j` comes
first in the stable input order. -/
def beats {α : Type} [LinearOrder α] {M : ℕ} (pref : Fin M → α) (reverse : Bool)
    (j i : Fin M) : Prop :=
  (if reverse then pref i < pref j else pref j < pref i) ∨ (pref j = pref i ∧ j < i)

instance beatsDecidable {α : Type} [LinearOrder α] {M : ℕ} (pref : Fin M → α)
    (reverse : Bool) (j i : Fin M) : Decidable (beats pref reverse j i) := by
  unfold beats
  infer_instance

/-- Modelled from the spec: the rank transform of the missing additions
library.  Each entity receives one plus the number of entities ranked
strictly before it, so the best entity gets rank 1; with reverse = true
the largest score is best. -/
def rank_preferences {α : Type} [LinearOrder α] {M : ℕ} (pref : Fin M → α)
    (reverse : Bool) (i : Fin M) : ℕ :=
  1 + (Finset.univ.filter fun j => beats pref reverse j i).card

/-- Modelled from the spec: the weighted normalized matrix of the TOPSIS
scorer, the max-normalized matrix with every column multiplied by its
criterion weight. -/
noncomputable def weightedNormalized {m n : ℕ} (matrix : Fin (m + 1) → Fin (n + 1) → ℝ)
    (weights : Fin (n + 1) → ℝ) (types : Fin (n + 1) → ℤ)
    (i : Fin (m + 1)) (j : Fin (n + 1)) : ℝ :=
  weights j * max_normalization matrix types i j

/-- Modelled from the spec: the TOPSIS ideal solution, per column the
maximum weighted normalized value for a benefit criterion and the minimum
for a cost criterion. -/
noncomputable def topsisIdeal {m n : ℕ} (matrix : Fin (m + 1) → Fin (n + 1) → ℝ)
    (weights : Fin (n + 1) → ℝ) (types : Fin (n + 1) → ℤ) (j : Fin (n + 1)) : ℝ :=
  if types j = 1 then colMax (weightedNormalized matrix weights types) j
  else colMin (weightedNormalized matrix weights types) j

/-- Modelled from the spec: the TOPSIS anti-ideal solution, the opposite
choice to the ideal solution in every column. -/
noncomputable def topsisAntiIdeal {m n : ℕ} (matrix : Fin (m + 1) → Fin (n + 1) → ℝ)
    (weights : Fin (n + 1) → ℝ) (types : Fin (n + 1) → ℤ) (j : Fin (n + 1)) : ℝ :=
  if types j = 1 then colMin (weightedNormalized matrix weights types) j
  else colMax (weightedNormalized matrix weights types) j

/-- Modelled from the spec: the Euclidean distance of entity `i` to the
TOPSIS ideal solution. -/
noncomputable def topsisDp {m n : ℕ} (matrix : Fin (m + 1) → Fin (n + 1) → ℝ)
    (weights : Fin (n + 1) → ℝ) (types : Fin (n + 1) → ℤ) (i : Fin (m + 1)) : ℝ :=
  Real.sqrt (∑ j, (weightedNormalized matrix weights types i j -
    topsisIdeal matrix weights types j) ^ 2)

/-- Modelled from the spec: the Euclidean distance of entity `i` to the
TOPSIS anti-ideal solution. -/
noncomputable def topsisDm {m n : ℕ} (matrix : Fin (m + 1) → Fin (n + 1) → ℝ)
    (weights : Fin (n + 1) → ℝ) (types : Fin (n + 1) → ℤ) (i : Fin (m + 1)) : ℝ :=
  Real.sqrt (∑ j, (weightedNormalized matrix weights types i j -
    topsisAntiIdeal matrix weights types j) ^ 2)

/-- Modelled from the spec: the TOPSIS preference score of entity `i`,
the anti-ideal distance divided by the distance sum, defined as 0 by
convention in the degenerate case of a vanishing distance sum. -/
noncomputable def topsis {m n : ℕ} (matrix : Fin (m + 1) → Fin (n + 1) → ℝ)
    (weights : Fin (n + 1) → ℝ) (types : Fin (n + 1) → ℤ) (i : Fin (m + 1)) : ℝ :=
  if topsisDp matrix weights types i + topsisDm matrix weights types i = 0 then 0
  else topsisDm matrix weights types i /
    (topsisDp matrix weights types i + topsisDm matrix weights types i)

/-- Modelled from the spec: the internal min-max scaling of the CRITIC
weighting, per column (x - min) / (max - min). -/
noncomputable def minmaxColumn {m n : ℕ} (matrix : Fin (m + 1) → Fin (n + 1) → ℝ)
    (i : Fin (m + 1)) (j : Fin (n + 1)) : ℝ :=
  (matrix i j - colMin matrix j) / (colMax matrix j - colMin matrix j)

/-- Mean of column `j` of a matrix. -/
noncomputable def colMean {m n : ℕ} (x : Fin (m + 1) → Fin (n + 1) → ℝ)
    (j : Fin (n + 1)) : ℝ :=
  (∑ i, x i j) / (m + 1)

/-- Modelled from the spec: the population standard deviation of column
`j`, used by the CRITIC weighting as the information content of a
criterion. -/
noncomputable def colStd {m n : ℕ} (x : Fin (m + 1) → Fin (n + 1) → ℝ)
    (j : Fin (n + 1)) : ℝ :=
  Real.sqrt ((∑ i, (x i j - colMean x j) ^ 2) / (m + 1))

/-- Modelled from the spec: the Pearson correlation coefficient of two
samples, centered covariance divided by the product of the deviation
norms. -/
noncomputable def pearson {M : ℕ} (a b : Fin M → ℝ) : ℝ :=
  (∑ i, (a i - (∑ u, a u) / M) * (b i - (∑ u, b u) / M)) /
    Real.sqrt ((∑ i, (a i - (∑ u, a u) / M) ^ 2) * (∑ i, (b i - (∑ u, b u) / M) ^ 2))

/-- Modelled from the spec: the CRITIC conflict score of criterion `j`,
the sum over all criteria `k` of one minus the correlation of the
min-max-normalized columns `j` and `k`. -/
noncomputable def criticConflict {m n : ℕ} (matrix : Fin (m + 1) → Fin (n + 1) → ℝ)
    (j : Fin (n + 1)) : ℝ :=
  ∑ k, (1 - pearson (fun i => minmaxColumn matrix i j) (fun i => minmaxColumn matrix i k))

/-- Modelled from the spec: the CRITIC criterion importance, standard
deviation times conflict. -/
noncomputable def criticImportance {m n : ℕ} (matrix : Fin (m + 1) → Fin (n + 1) → ℝ)
    (j : Fin (n + 1)) : ℝ :=
  colStd (minmaxColumn matrix) j * criticConflict matrix j

/-- Modelled from the spec: the CRITIC weight vector of the missing
weighting library, each criterion importance divided by the total
importance. -/
noncomputable def critic_weighting {m n : ℕ} (matrix : Fin (m + 1) → Fin (n + 1) → ℝ)
    (j : Fin (n + 1)) : ℝ :=
  criticImportance matrix j / ∑ k, criticImportance matrix k

/-- Per-period preference vector of the driver: the TOPSIS score of each
entity for the decision matrix of period `p`, weighted by the CRITIC
weights recomputed from that period's own matrix. -/
noncomputable def annualPreference {m n P : ℕ} (data : Fin P → Fin (m + 1) → Fin (n + 1) → ℝ)
    (types : Fin (n + 1) → ℤ) (p : Fin P) (i : Fin (m + 1)) : ℝ :=
  topsis (data p) (critic_weighting (data p)) types i

/-- The preference table of the driver, rows indexed by entities and
columns by periods, each column being one annual TOPSIS preference
vector. -/
noncomputable def preferencesTable {m n P : ℕ} (data : Fin P → Fin (m + 1) → Fin (n + 1) → ℝ)
    (types : Fin (n + 1) → ℤ) (i : Fin (m + 1)) (p : Fin P) : ℝ :=
  annualPreference data types p i

/-- Row mean of an entity-by-period table, the pandas mean over axis 1:
the sum of the row divided by the number of periods. -/
noncomputable def rowMean {m P : ℕ} (tbl : Fin (m + 1) → Fin P → ℝ) (i : Fin (m + 1)) : ℝ :=
  (∑ p, tbl i p) / P

/-- The baseline score vector the driver feeds to the efficiency
updater: the row mean of the preference table. -/
noncomputable def pipelineBaseline {m n P : ℕ} (data : Fin P → Fin (m + 1) → Fin (n + 1) → ℝ)
    (types : Fin (n + 1) → ℤ) (i : Fin (m + 1)) : ℝ :=
  rowMean (preferencesTable data types) i

/-- The tables held by the driver when the final calculation stage
starts: the per-period preference table, the variability column and the
direction column of the variability table, and the (initially absent)
final outputs. -/
structure MainTables (m P : ℕ) where
  preferences_t : Fin (m + 1) → Fin P → ℝ
  variability : Fin (m + 1) → ℝ
  directions : Fin (m + 1) → ℝ
  finalPref : Option (Fin (m + 1) → ℝ)
  finalRank : Option (Fin (m + 1) → ℕ)

/-- The final calculation stage of the driver: it reads deep copies of
the variability table and the preference table, takes the row mean of
the preference table as baseline, updates the efficiencies with the
DARIA rule, ranks the result in descending order, and stores the two
outputs. -/
noncomputable def finalCalculation {m P : ℕ} (st : MainTables m P) : MainTables m P :=
  let gVaria := st.variability
  let gDir := st.directions
  let sTable := st.preferences_t
  let S := rowMean sTable
  let final_S := DARIA.update_efficiency S gVaria gDir
  let rank := rank_preferences final_S true
  { st with finalPref := some final_S, finalRank := some rank }

/-- The column maximum of a two-row matrix is the larger entry. -/
lemma colMax_fin_two {n : ℕ} (v : Fin 2 → Fin (n + 1) → ℝ) (j : Fin (n + 1)) :
    colMax v j = max (v 0 j) (v 1 j) := by
  unfold colMax
  apply le_antisymm
  · apply Finset.sup'_le
    intro i _
    fin_cases i
    · exact le_max_left _ _
    · exact le_max_right _ _
  · apply max_le
    · exact Finset.le_sup' (fun i => v i j) (Finset.mem_univ (0 : Fin 2))
    · exact Finset.le_sup' (fun i => v i j) (Finset.mem_univ (1 : Fin 2))

/-- The column minimum of a two-row matrix is the smaller entry. -/
lemma colMin_fin_two {n : ℕ} (v : Fin 2 → Fin (n + 1) → ℝ) (j : Fin (n + 1)) :
    colMin v j = min (v 0 j) (v 1 j) := by
  unfold colMin
  apply le_antisymm
  · exact le_min (Finset.inf'_le (fun i => v i j) (Finset.mem_univ (0 : Fin 2)))
      (Finset.inf'_le (fun i => v i j) (Finset.mem_univ (1 : Fin 2)))
  · apply Finset.le_inf'
    intro i _
    fin_cases i
    · exact min_le_left _ _
    · exact min_le_right _ _

/-- Cauchy-Schwarz in quotient form: a correlation-style ratio is at
most one. -/
lemma div_sqrt_le_one {M : ℕ} (f g : Fin M → ℝ) :
    (∑ i, f i * g i) / Real.sqrt ((∑ i, f i ^ 2) * (∑ i, g i ^ 2)) ≤ 1 := by
  have hden : 0 ≤ Real.sqrt ((∑ i, f i ^ 2) * (∑ i, g i ^ 2)) := Real.sqrt_nonneg _
  rcases eq_or_lt_of_le hden with h0 | hpos
  · rw [← h0, div_zero]
    norm_num
  · rw [div_le_one hpos]
    calc ∑ i, f i * g i ≤ |∑ i, f i * g i| := le_abs_self _
      _ = Real.sqrt ((∑ i, f i * g i) ^ 2) := (Real.sqrt_sq_eq_abs _).symm
      _ ≤ Real.sqrt ((∑ i, f i ^ 2) * (∑ i, g i ^ 2)) :=
          Real.sqrt_le_sqrt (Finset.sum_mul_sq_le_sq_mul_sq Finset.univ f g)

/-- The Pearson correlation coefficient never exceeds one. -/
lemma pearson_le_one {M : ℕ} (a b : Fin M → ℝ) : pearson a b ≤ 1 := by
  unfold pearson
  exact div_sqrt_le_one (fun i => a i - (∑ u, a u) / M) (fun i => b i - (∑ u, b u) / M)

/-- Every CRITIC criterion importance is nonnegative. -/
lemma criticImportance_nonneg {m n : ℕ} (matrix : Fin (m + 1) → Fin (n + 1) → ℝ)
    (j : Fin (n + 1)) : 0 ≤ criticImportance matrix j := by
  unfold criticImportance
  apply mul_nonneg
  · unfold colStd
    exact Real.sqrt_nonneg _
  · unfold criticConflict
    apply Finset.sum_nonneg
    intro k _
    have := pearson_le_one (fun i => minmaxColumn matrix i j) (fun i => minmaxColumn matrix i k)
    linarith

/-- C4 (amended): for every decision matrix whose total CRITIC
importance does not vanish, the CRITIC weights are all nonnegative and
sum to exactly one; nonnegativity needs no hypothesis at all. -/
theorem critic_weighting_simplex {m n : ℕ} (matrix : Fin (m + 1) → Fin (n + 1) → ℝ)
    (h : ∑ k, criticImportance matrix k ≠ 0) :
    (∀ j, 0 ≤ critic_weighting matrix j) ∧ ∑ j, critic_weighting matrix j = 1 := by
  constructor
  · intro j
    unfold critic_weighting
    exact div_nonneg (criticImportance_nonneg matrix j)
      (Finset.sum_nonneg fun k _ => criticImportance_nonneg matrix k)
  · unfold critic_weighting
    rw [← Finset.sum_div]
    exact div_self h

/-- Min-max scaling acts as the identity on the 0-1-valued witness
matrix. -/
lemma wit_minmax : ∀ i j, minmaxColumn ![![(0 : ℝ), 1], ![1, 0]] i j =
    ![![(0 : ℝ), 1], ![1, 0]] i j := by
  intro i j
  unfold minmaxColumn
  fin_cases j <;>
    simp [colMax_fin_two, colMin_fin_two]

/-- First self-correlation of the witness matrix. -/
lemma wit_p00 : pearson (fun i => minmaxColumn ![![(0 : ℝ), 1], ![1, 0]] i 0)
    (fun i => minmaxColumn ![![(0 : ℝ), 1], ![1, 0]] i 0) = 1 := by
  unfold pearson
  simp only [wit_minmax]
  norm_num [Fin.sum_univ_succ, Fin.sum_univ_zero, Matrix.cons_val_zero,
    Matrix.cons_val_one, Matrix.head_cons]
  rw [show (4 : ℝ) = 2 ^ 2 by norm_num, Real.sqrt_sq (by norm_num : (0 : ℝ) ≤ 2)]
  norm_num

/-- Cross-correlation of the witness matrix, first direction. -/
lemma wit_p01 : pearson (fun i => minmaxColumn ![![(0 : ℝ), 1], ![1, 0]] i 0)
    (fun i => minmaxColumn ![![(0 : ℝ), 1], ![1, 0]] i 1) = -1 := by
  unfold pearson
  simp only [wit_minmax]
  norm_num [Fin.sum_univ_succ, Fin.sum_univ_zero, Matrix.cons_val_zero,
    Matrix.cons_val_one, Matrix.head_cons]
  rw [show (4 : ℝ) = 2 ^ 2 by norm_num, Real.sqrt_sq (by norm_num : (0 : ℝ) ≤ 2)]
  norm_num

/-- Cross-correlation of the witness matrix, second direction. -/
lemma wit_p10 : pearson (fun i => minmaxColumn ![![(0 : ℝ), 1], ![1, 0]] i 1)
    (fun i => minmaxColumn ![![(0 : ℝ), 1], ![1, 0]] i 0) = -1 := by
  unfold pearson
  simp only [wit_minmax]
  norm_num [Fin.sum_univ_succ, Fin.sum_univ_zero, Matrix.cons_val_zero,
    Matrix.cons_val_one, Matrix.head_cons]
  rw [show (4 : ℝ) = 2 ^ 2 by norm_num, Real.sqrt_sq (by norm_num : (0 : ℝ) ≤ 2)]
  norm_num

/-- Second self-correlation of the witness matrix. -/
lemma wit_p11 : pearson (fun i => minmaxColumn ![![(0 : ℝ), 1], ![1, 0]] i 1)
    (fun i => minmaxColumn ![![(0 : ℝ), 1], ![1, 0]] i 1) = 1 := by
  unfold pearson
  simp only [wit_minmax]
  norm_num [Fin.sum_univ_succ, Fin.sum_univ_zero, Matrix.cons_val_zero,
    Matrix.cons_val_one, Matrix.head_cons]
  rw [show (4 : ℝ) = 2 ^ 2 by norm_num, Real.sqrt_sq (by norm_num : (0 : ℝ) ≤ 2)]
  norm_num

/-- Both normalized columns of the witness matrix have standard
deviation one half. -/
lemma wit_std : ∀ j, colStd (minmaxColumn ![![(0 : ℝ), 1], ![1, 0]]) j = 1 / 2 := by
  intro j
  unfold colStd colMean
  simp only [wit_minmax]
  fin_cases j <;>
  · norm_num [Fin.sum_univ_succ, Fin.sum_univ_zero, Matrix.cons_val_zero,
      Matrix.cons_val_one, Matrix.head_cons]
    rw [show (4 : ℝ) = 2 ^ 2 by norm_num, Real.sqrt_sq (by norm_num : (0 : ℝ) ≤ 2)]
    norm_num

/-- The total CRITIC importance of the witness matrix is 2. -/
lemma wit_sum : ∑ k, criticImportance ![![(0 : ℝ), 1], ![1, 0]] k = 2 := by
  unfold criticImportance criticConflict
  simp only [Fin.sum_univ_succ, Fin.sum_univ_zero, Fin.succ_zero_eq_one]
  rw [wit_p00, wit_p01, wit_p10, wit_p11, wit_std 0, wit_std 1]
  norm_num

/-- Witness for C4 at a concrete anti-diagonal matrix with nonvanishing
total importance. -/
theorem critic_weighting_simplex_witness :
    (∀ j, 0 ≤ critic_weighting ![![(0 : ℝ), 1], ![1, 0]] j) ∧
    ∑ j, critic_weighting ![![(0 : ℝ), 1], ![1, 0]] j = 1 :=
  critic_weighting_simplex ![![(0 : ℝ), 1], ![1, 0]] (by rw [wit_sum]; norm_num)

/-- Min-max scaling acts as the identity on the perfectly correlated
matrix. -/
lemma ce_minmax : ∀ i j, minmaxColumn ![![(0 : ℝ), 0], ![1, 1]] i j =
    ![![(0 : ℝ), 0], ![1, 1]] i j := by
  intro i j
  unfold minmaxColumn
  fin_cases j <;>
    simp [colMax_fin_two, colMin_fin_two]

/-- Every pair of normalized columns of the perfectly correlated matrix
has correlation one. -/
lemma ce_pearson : ∀ j k : Fin 2,
    pearson (fun i => minmaxColumn ![![(0 : ℝ), 0], ![1, 1]] i j)
      (fun i => minmaxColumn ![![(0 : ℝ), 0], ![1, 1]] i k) = 1 := by
  intro j k
  unfold pearson
  simp only [ce_minmax]
  fin_cases j <;> fin_cases k <;>
  · norm_num [Fin.sum_univ_succ, Fin.sum_univ_zero, Matrix.cons_val_zero,
      Matrix.cons_val_one, Matrix.head_cons]
    rw [show (4 : ℝ) = 2 ^ 2 by norm_num, Real.sqrt_sq (by norm_num : (0 : ℝ) ≤ 2)]
    norm_num

/-- The conflict scores of the perfectly correlated matrix vanish. -/
lemma ce_conflict : ∀ j, criticConflict ![![(0 : ℝ), 0], ![1, 1]] j = 0 := by
  intro j
  unfold criticConflict
  simp only [Fin.sum_univ_succ, Fin.sum_univ_zero, Fin.succ_zero_eq_one]
  rw [ce_pearson j 0, ce_pearson j 1]
  norm_num

/-- The CRITIC weights of the perfectly correlated matrix sum to zero. -/
lemma ce_weights : ∑ j, critic_weighting ![![(0 : ℝ), 0], ![1, 1]] j = 0 := by
  unfold critic_weighting criticImportance
  simp only [ce_conflict, mul_zero, zero_div, Finset.sum_const_zero]

/-- Counterexample for C4: the matrix with rows 0 0 and 1 1 has two
nonconstant columns, so it is a valid decision matrix, yet its two
perfectly correlated columns give every criterion zero CRITIC
importance, and the returned weights sum to 0, not 1. -/
theorem critic_weighting_counterexample :
    (![![(0 : ℝ), 0], ![1, 1]] : Fin 2 → Fin 2 → ℝ) 0 0 ≠
      (![![(0 : ℝ), 0], ![1, 1]] : Fin 2 → Fin 2 → ℝ) 1 0 ∧
    (![![(0 : ℝ), 0], ![1, 1]] : Fin 2 → Fin 2 → ℝ) 0 1 ≠
      (![![(0 : ℝ), 0], ![1, 1]] : Fin 2 → Fin 2 → ℝ) 1 1 ∧
    ∑ j, critic_weighting ![![(0 : ℝ), 0], ![1, 1]] j = 0 ∧
    ∑ j, critic_weighting ![![(0 : ℝ), 0], ![1, 1]] j ≠ 1 := by
  refine ⟨by norm_num, by norm_num, ce_weights, ?_⟩
  rw [ce_weights]
  norm_num

/-- Maximal-entropy bound: the Shannon entropy of a probability
distribution over T outcomes is at most log T. -/
lemma sum_negMulLog_le_log_card {T : ℕ} (hT : 1 ≤ T) (p : Fin T → ℝ)
    (hp : ∀ t, 0 ≤ p t) (hsum : ∑ t, p t = 1) :
    ∑ t, Real.negMulLog (p t) ≤ Real.log T := by
  have hT0 : (0 : ℝ) < T := by exact_mod_cast hT
  have key : ∀ t : Fin T, Real.negMulLog (p t) - p t * Real.log T ≤ 1 / T - p t := by
    intro t
    rcases eq_or_lt_of_le (hp t) with h0 | hpos
    · rw [← h0]
      simp only [Real.negMulLog_zero, zero_mul, sub_zero, sub_self]
      positivity
    · have hx : 0 < p t * T := mul_pos hpos hT0
      have hlog := Real.log_le_sub_one_of_pos (inv_pos.mpr hx)
      rw [Real.log_inv, Real.log_mul (ne_of_gt hpos) (ne_of_gt hT0)] at hlog
      have hmul := mul_le_mul_of_nonneg_left hlog hpos.le
      have hinv : p t * (p t * (T : ℝ))⁻¹ = 1 / T := by
        rw [mul_inv]
        rw [← mul_assoc, mul_inv_cancel₀ (ne_of_gt hpos), one_mul, one_div]
      calc Real.negMulLog (p t) - p t * Real.log T
          = p t * -(Real.log (p t) + Real.log T) := by
            unfold Real.negMulLog; ring
        _ ≤ p t * ((p t * T)⁻¹ - 1) := hmul
        _ = 1 / T - p t := by rw [mul_sub, hinv, mul_one]
  have hsumineq := Finset.sum_le_sum fun t (_ : t ∈ Finset.univ) => key t
  have hL : ∑ t, (Real.negMulLog (p t) - p t * Real.log T)
      = (∑ t, Real.negMulLog (p t)) - Real.log T := by
    rw [Finset.sum_sub_distrib, ← Finset.sum_mul, hsum, one_mul]
  have hR : ∑ _t : Fin T, (1 / (T : ℝ) - p _t) = 0 := by
    rw [Finset.sum_sub_distrib, hsum, Finset.sum_const, Finset.card_univ, Fintype.card_fin,
      nsmul_eq_mul]
    field_simp
  rw [hL, hR] at hsumineq
  linarith

/-- C2: over nonnegative period score matrices the DARIA engine is
total: the entropy-based variability is nonnegative for every entity and
the direction is plus or minus one for every entity. -/
theorem daria_outputs_total {T m : ℕ} (matrix : Fin (T + 1) → Fin m → ℝ) (ty : ℝ)
    (i : Fin m) (hM : ∀ t j, 0 ≤ matrix t j) (hty : ty = 1 ∨ ty = -1) :
    0 ≤ DARIA.entropy matrix i ∧
    (DARIA.direction matrix ty i = 1 ∨ DARIA.direction matrix ty i = -1) := by
  constructor
  · unfold DARIA.entropy
    split_ifs with h
    · exact le_refl 0
    · push_neg at h
      obtain ⟨hT, hs⟩ := h
      have hsum_nonneg : 0 ≤ ∑ t, matrix t i := Finset.sum_nonneg fun t _ => hM t i
      have hspos : 0 < ∑ t, matrix t i := lt_of_le_of_ne hsum_nonneg (Ne.symm hs)
      have hp : ∀ t, 0 ≤ matrix t i / ∑ u, matrix u i :=
        fun t => div_nonneg (hM t i) hspos.le
      have hpsum : ∑ t, matrix t i / ∑ u, matrix u i = 1 := by
        rw [← Finset.sum_div]
        exact div_self hs
      have hbound := sum_negMulLog_le_log_card (by omega : 1 ≤ T + 1) _ hp hpsum
      have hlogpos : 0 < Real.log ((T + 1 : ℕ) : ℝ) := by
        apply Real.log_pos
        have h2 : (2 : ℕ) ≤ T + 1 := by omega
        exact_mod_cast lt_of_lt_of_le one_lt_two (by exact_mod_cast h2)
      have hdiv : (∑ t, Real.negMulLog (matrix t i / ∑ u, matrix u i)) /
          Real.log ((T + 1 : ℕ) : ℝ) ≤ 1 :=
        (div_le_one hlogpos).mpr hbound
      linarith
  · rcases hty with h | h <;> unfold DARIA.direction <;> rw [h] <;> split_ifs <;> norm_num

/-- Witness for C2 at a constant two-period one-entity score matrix. -/
theorem daria_outputs_total_witness :
    0 ≤ DARIA.entropy (fun (_ : Fin 2) (_ : Fin 1) => (1 : ℝ)) 0 ∧
    (DARIA.direction (fun (_ : Fin 2) (_ : Fin 1) => (1 : ℝ)) 1 0 = 1 ∨
     DARIA.direction (fun (_ : Fin 2) (_ : Fin 1) => (1 : ℝ)) 1 0 = -1) :=
  daria_outputs_total (fun _ _ => (1 : ℝ)) 1 0 (fun _ _ => by norm_num) (Or.inl rfl)

/-- Priority on a concrete descending flag, unfolded. -/
lemma beats_true_iff {α : Type} [LinearOrder α] {M : ℕ} (pref : Fin M → α) (j i : Fin M) :
    beats pref true j i ↔ (pref i < pref j ∨ (pref j = pref i ∧ j < i)) := by
  simp [beats]

/-- Nothing is ranked strictly before itself. -/
lemma beats_irrefl {α : Type} [LinearOrder α] {M : ℕ} (pref : Fin M → α) (rev : Bool)
    (i : Fin M) : ¬ beats pref rev i i := by
  unfold beats
  rintro (h | ⟨_, h2⟩)
  · split_ifs at h <;> exact lt_irrefl _ h
  · exact lt_irrefl _ h2

/-- The priority relation is transitive. -/
lemma beats_trans {α : Type} [LinearOrder α] {M : ℕ} (pref : Fin M → α) (rev : Bool)
    {a b c : Fin M} (hab : beats pref rev a b) (hbc : beats pref rev b c) :
    beats pref rev a c := by
  unfold beats at hab hbc ⊢
  split_ifs at hab hbc ⊢ with hc <;>
    rcases hab with h1 | ⟨e1, l1⟩ <;> rcases hbc with h2 | ⟨e2, l2⟩ <;>
      first
        | exact Or.inl (h2.trans h1)
        | exact Or.inl (h1.trans h2)
        | exact Or.inl (lt_of_eq_of_lt e2.symm h1)
        | exact Or.inl (lt_of_lt_of_eq h2 e1.symm)
        | exact Or.inl (lt_of_lt_of_eq h1 e2)
        | exact Or.inl (lt_of_eq_of_lt e1 h2)
        | exact Or.inr ⟨e1.trans e2, l1.trans l2⟩

/-- Any two distinct entities are comparable by the priority relation. -/
lemma beats_total {α : Type} [LinearOrder α] {M : ℕ} (pref : Fin M → α) (rev : Bool)
    {j i : Fin M} (hne : j ≠ i) : beats pref rev j i ∨ beats pref rev i j := by
  unfold beats
  split_ifs with hc <;> rcases lt_trichotomy (pref j) (pref i) with h | h | h
  · exact Or.inr (Or.inl h)
  · rcases hne.lt_or_lt with hl | hl
    · exact Or.inl (Or.inr ⟨h, hl⟩)
    · exact Or.inr (Or.inr ⟨h.symm, hl⟩)
  · exact Or.inl (Or.inl h)
  · exact Or.inl (Or.inl h)
  · rcases hne.lt_or_lt with hl | hl
    · exact Or.inl (Or.inr ⟨h, hl⟩)
    · exact Or.inr (Or.inr ⟨h.symm, hl⟩)
  · exact Or.inr (Or.inl h)

/-- A strictly prior entity receives a strictly smaller rank. -/
lemma rank_lt_of_beats {α : Type} [LinearOrder α] {M : ℕ} (pref : Fin M → α) (rev : Bool)
    {i k : Fin M} (h : beats pref rev i k) :
    rank_preferences pref rev i < rank_preferences pref rev k := by
  unfold rank_preferences
  have hsub : (Finset.univ.filter fun j => beats pref rev j i) ⊆
      Finset.univ.filter fun j => beats pref rev j k := by
    intro j hj
    simp only [Finset.mem_filter, Finset.mem_univ, true_and] at hj ⊢
    exact beats_trans pref rev hj h
  have hmem : i ∈ Finset.univ.filter fun j => beats pref rev j k := by
    simp only [Finset.mem_filter, Finset.mem_univ, true_and]
    exact h
  have hnot : i ∉ Finset.univ.filter fun j => beats pref rev j i := by
    simp only [Finset.mem_filter, Finset.mem_univ, true_and]
    exact beats_irrefl pref rev i
  have hss : (Finset.univ.filter fun j => beats pref rev j i) ⊂
      Finset.univ.filter fun j => beats pref rev j k :=
    (Finset.ssubset_iff_of_subset hsub).mpr ⟨i, hmem, hnot⟩
  have := Finset.card_lt_card hss
  omega

/-- Every rank lies between 1 and the number of entities. -/
lemma rank_mem_Icc {α : Type} [LinearOrder α] {M : ℕ} (pref : Fin M → α) (rev : Bool)
    (i : Fin M) : rank_preferences pref rev i ∈ Finset.Icc 1 M := by
  unfold rank_preferences
  simp only [Finset.mem_Icc]
  refine ⟨by omega, ?_⟩
  have hsub : (Finset.univ.filter fun j => beats pref rev j i) ⊆ Finset.univ.erase i := by
    intro j hj
    simp only [Finset.mem_filter, Finset.mem_univ, true_and] at hj
    simp only [Finset.mem_erase, Finset.mem_univ, and_true]
    rintro rfl
    exact beats_irrefl pref rev _ hj
  have hcard := Finset.card_le_card hsub
  have herase : (Finset.univ.erase i).card = M - 1 := by
    rw [Finset.card_erase_of_mem (Finset.mem_univ i), Finset.card_univ, Fintype.card_fin]
  have hpos : 0 < M := i.pos
  omega

/-- Distinct entities receive distinct ranks. -/
lemma rank_injective {α : Type} [LinearOrder α] {M : ℕ} (pref : Fin M → α) (rev : Bool) :
    Function.Injective (rank_preferences pref rev) := by
  intro i k h
  by_contra hne
  rcases beats_total pref rev hne with hb | hb
  · exact absurd h (Nat.ne_of_lt (rank_lt_of_beats pref rev hb))
  · exact absurd h.symm (Nat.ne_of_lt (rank_lt_of_beats pref rev hb))

/-- The ranks are exactly the integers from 1 to the entity count. -/
lemma rank_image {α : Type} [LinearOrder α] {M : ℕ} (pref : Fin M → α) (rev : Bool) :
    Finset.image (rank_preferences pref rev) Finset.univ = Finset.Icc 1 M := by
  apply Finset.eq_of_subset_of_card_le
  · intro x hx
    simp only [Finset.mem_image] at hx
    obtain ⟨i, _, rfl⟩ := hx
    exact rank_mem_Icc pref rev i
  · rw [Nat.card_Icc, Finset.card_image_of_injective _ (rank_injective pref rev),
      Finset.card_univ, Fintype.card_fin]
    omega

/-- With the descending flag, the stably-first entity of maximal score
gets rank 1. -/
lemma rank_of_first_max {α : Type} [LinearOrder α] {M : ℕ} (pref : Fin M → α) {i : Fin M}
    (hmax : ∀ j, pref j ≤ pref i) (hfirst : ∀ j, j < i → pref j ≠ pref i) :
    rank_preferences pref true i = 1 := by
  unfold rank_preferences
  have hempty : (Finset.univ.filter fun j => beats pref true j i) = ∅ := by
    apply Finset.filter_eq_empty_iff.mpr
    intro j _
    rw [beats_true_iff]
    rintro (h | ⟨he, hl⟩)
    · exact absurd h (not_lt.mpr (hmax j))
    · exact hfirst j hl he
  rw [hempty]
  simp

/-- C5: the rank transform is injective, its ranks are exactly a
permutation of 1..m, and with the descending flag the largest score
(stable first occurrence) receives rank 1. -/
theorem rank_preferences_bijection {α : Type} [LinearOrder α] {M : ℕ} (pref : Fin M → α)
    (reverse : Bool) :
    Function.Injective (rank_preferences pref reverse) ∧
    Finset.image (rank_preferences pref reverse) Finset.univ = Finset.Icc 1 M ∧
    (∀ i : Fin M, (∀ j, pref j ≤ pref i) → (∀ j, j < i → pref j ≠ pref i) →
      rank_preferences pref true i = 1) :=
  ⟨rank_injective pref reverse, rank_image pref reverse,
    fun _ h1 h2 => rank_of_first_max pref h1 h2⟩

/-- Witness for C5: on the concrete score vector 3, 1, 2 the first entity
holds the unique largest score and receives rank 1. -/
theorem rank_preferences_bijection_witness :
    rank_preferences ![(3 : ℕ), 1, 2] true 0 = 1 :=
  (rank_preferences_bijection ![(3 : ℕ), 1, 2] true).2.2 0 (by decide) (by decide)

/-- C1: the efficiency updater returns, elementwise, final = baseline +
direction * variability; hence with nonnegative variability a +1
direction never decreases and a -1 direction never increases the
baseline. -/
theorem update_efficiency_rule {k : ℕ} (baseline varia d : Fin k → ℝ) (i : Fin k) :
    DARIA.update_efficiency baseline varia d i = baseline i + d i * varia i ∧
    (0 ≤ varia i → d i = 1 → baseline i ≤ DARIA.update_efficiency baseline varia d i) ∧
    (0 ≤ varia i → d i = -1 → DARIA.update_efficiency baseline varia d i ≤ baseline i) := by
  refine ⟨rfl, ?_, ?_⟩ <;> intro hv hd <;>
    simp only [DARIA.update_efficiency, hd] <;> linarith

/-- Witness for C1 at concrete one-entity vectors. -/
theorem update_efficiency_rule_witness :
    (![(0 : ℝ)]) 0 ≤ DARIA.update_efficiency ![(0 : ℝ)] ![(1 : ℝ)] ![(1 : ℝ)] 0 ∧
    DARIA.update_efficiency ![(2 : ℝ)] ![(1 : ℝ)] ![(-1 : ℝ)] 0 ≤ (![(2 : ℝ)]) 0 :=
  ⟨(update_efficiency_rule ![(0 : ℝ)] ![(1 : ℝ)] ![(1 : ℝ)] 0).2.1 (by norm_num) (by norm_num),
   (update_efficiency_rule ![(2 : ℝ)] ![(1 : ℝ)] ![(-1 : ℝ)] 0).2.2 (by norm_num) (by norm_num)⟩

/-- C6: with the higher-is-better convention the DARIA direction is +1
exactly when the last-period score exceeds the first-period score and -1
otherwise, and the inverted convention flips this mapping. -/
theorem direction_mapping {T m : ℕ} (matrix : Fin (T + 1) → Fin m → ℝ) (i : Fin m) :
    (DARIA.direction matrix 1 i =
      if matrix 0 i < matrix (Fin.last T) i then 1 else -1) ∧
    (DARIA.direction matrix (-1) i =
      if matrix 0 i < matrix (Fin.last T) i then -1 else 1) := by
  refine ⟨?_, ?_⟩ <;> unfold DARIA.direction <;> split_ifs <;> ring

/-- C9: both rank-correlation measures evaluate to exactly 1 on a pair
of identical rank vectors. -/
theorem correlation_self_identity {N : ℕ} (r : Fin N → ℝ) :
    spearman r r = 1 ∧ weighted_spearman r r = 1 := by
  constructor <;> simp [spearman, weighted_spearman]

/-- C3: every preference score returned by the TOPSIS scorer lies in the
closed interval from 0 to 1. -/
theorem topsis_bounded {m n : ℕ} (matrix : Fin (m + 1) → Fin (n + 1) → ℝ)
    (weights : Fin (n + 1) → ℝ) (types : Fin (n + 1) → ℤ) (i : Fin (m + 1)) :
    0 ≤ topsis matrix weights types i ∧ topsis matrix weights types i ≤ 1 := by
  have hp : 0 ≤ topsisDp matrix weights types i := by
    unfold topsisDp; exact Real.sqrt_nonneg _
  have hm : 0 ≤ topsisDm matrix weights types i := by
    unfold topsisDm; exact Real.sqrt_nonneg _
  unfold topsis
  split_ifs with h
  · norm_num
  · have hpos : 0 < topsisDp matrix weights types i + topsisDm matrix weights types i :=
      lt_of_le_of_ne (by linarith) (Ne.symm h)
    exact ⟨div_nonneg hm hpos.le, by rw [div_le_one hpos]; linarith⟩

/-- C8: when the TOPSIS distance sum vanishes for an entity, the scorer
returns the preference score 0 for that entity. -/
theorem topsis_degenerate_zero {m n : ℕ} (matrix : Fin (m + 1) → Fin (n + 1) → ℝ)
    (weights : Fin (n + 1) → ℝ) (types : Fin (n + 1) → ℤ) (i : Fin (m + 1))
    (h : topsisDp matrix weights types i + topsisDm matrix weights types i = 0) :
    topsis matrix weights types i = 0 := by
  unfold topsis; exact if_pos h

/-- Witness for C8: a single-entity single-criterion matrix coincides
with both the ideal and the anti-ideal solution, and its score is 0. -/
theorem topsis_degenerate_zero_witness :
    topsis ![![(1 : ℝ)]] ![(1 : ℝ)] ![(1 : ℤ)] 0 = 0 := by
  refine topsis_degenerate_zero ![![(1 : ℝ)]] ![(1 : ℝ)] ![(1 : ℤ)] 0 ?_
  simp [topsisDp, topsisDm, topsisIdeal, topsisAntiIdeal, weightedNormalized,
    max_normalization, colMax, colMin, Finset.univ_unique, Fin.sum_univ_one]

/-- C7: the baseline score vector fed to the efficiency updater is, for
each entity, the sum over all periods of that entity's per-period TOPSIS
preference scores (computed with that period's CRITIC weights) divided
by the number of periods. -/
theorem pipeline_baseline_mean {m n P : ℕ} (data : Fin P → Fin (m + 1) → Fin (n + 1) → ℝ)
    (types : Fin (n + 1) → ℤ) (i : Fin (m + 1)) :
    pipelineBaseline data types i =
      (∑ p, topsis (data p) (critic_weighting (data p)) types i) / P := rfl

/-- C10: the final calculation stage leaves the per-period preference
table and both columns of the variability table unchanged, and its final
preference output is the efficiency update of the row-mean baseline with
the stored variability and direction columns. -/
theorem final_stage_frame {m P : ℕ} (st : MainTables m P) :
    (finalCalculation st).preferences_t = st.preferences_t ∧
    (finalCalculation st).variability = st.variability ∧
    (finalCalculation st).directions = st.directions ∧
    (finalCalculation st).finalPref =
      some (DARIA.update_efficiency (rowMean st.preferences_t)
        st.variability st.directions) :=
  ⟨rfl, rfl, rfl, rfl⟩

end DariaTopsis
